import Mathlib

set_option maxHeartbeats 1000000

/-!
Shallow embedding of the iko in-memory transaction chain
(`src/iko/chain.go` of github.com/kittycash/wallet) and proofs of the
contract properties of its operations.
-/

/-- Modelled from the spec: the `Transaction` type itself is not among the
source files (only `chain.go` and the CLI entry point are present). The spec
describes a transaction as an immutable record whose content determines its
identity hash; the chain engine treats transactions as opaque values, so we
model a transaction as a record of numeric fields standing for the asset
identifier and the operation payload. -/
structure Transaction where
  assetID : Nat
  payload : Nat
deriving DecidableEq, Repr

/-- Modelled from the spec: `TxHash` is the content-derived identity of a
`Transaction`. The concrete hash primitive is outside the examined sources
(the spec treats it as an opaque compute function), so every operation that
hashes is parameterised over a hash function `H : Transaction → TxHash`. -/
abbrev TxHash := Nat

/-- Go `error` values: the chain code only ever builds them from message
strings (`errors.New`, `fmt.Errorf`), so errors are modelled as strings. -/
abbrev Err := String

/-- A `TxChecker` checks the transaction and returns an error when there is a
problem with it and it should not be added to the chain (`chain.go` line 12). -/
abbrev TxChecker := Transaction → Option Err

/-- Lookup in the Go map `byHash`, modelled as an association list where a new
binding for an existing key shadows the old one (insertion at the front, first
match wins). The Go code stores a pointer to the appended slice element; since
entries are never mutated after admission, dereferencing that pointer always
yields the value that was appended, so a by-value map is an observationally
faithful model of `map[TxHash]*Transaction`. -/
def mapLookup (m : List (TxHash × Transaction)) (h : TxHash) : Option Transaction :=
  match m with
  | [] => none
  | (k, v) :: rest => if k = h then some v else mapLookup rest h

/-- `MemoryChain` (chain.go lines 54-59): an ordered slice of transactions plus
a hash index. The reader/writer mutex and the notification channel are
concurrency devices with no sequential observable behaviour on the chain state
and are not part of the sequential state model. -/
structure MemoryChain where
  txs : List Transaction
  byHash : List (TxHash × Transaction)
deriving DecidableEq, Repr

/-- `NewMemoryChain` (chain.go lines 61-66): empty slice, empty map. The
`bufferSize` argument only sizes the notification channel and is dropped. -/
def NewMemoryChain : MemoryChain := { txs := [], byHash := [] }

/-- The modulus of Go's `uint64`. -/
def U64 : Nat := 2 ^ 64

/-- `MemoryChain.Head` (chain.go lines 68-76): error on the empty chain,
otherwise the last element of the slice. -/
def MemoryChain.Head (c : MemoryChain) : Except Err Transaction :=
  if h : c.txs.length = 0 then .error "no transactions"
  else .ok (c.txs.get ⟨c.txs.length - 1, by omega⟩)

/-- `MemoryChain.HeadSeq` (chain.go lines 78-83): `uint64(len(c.txs)) - 1`
computed in wrapping unsigned 64-bit arithmetic. Go's `len` is non-negative
and below `2^63`, so the conversion to `uint64` is exact and the subtraction
is the only place wraparound can occur; `n - 1` in `uint64` is
`(n + (2^64 - 1)) % 2^64`. -/
def MemoryChain.HeadSeq (c : MemoryChain) : Nat :=
  (c.txs.length + (U64 - 1)) % U64

/-- `MemoryChain.Len` (chain.go lines 85-90). -/
def MemoryChain.Len (c : MemoryChain) : Nat :=
  c.txs.length

/-- `MemoryChain.AddTx` (chain.go lines 92-106): run `check`; on failure return
its error with the state untouched; on success append the transaction to the
slice and (re)bind its hash in the index. The goroutine that feeds the
notification channel does not touch the chain state. -/
def MemoryChain.AddTx (H : Transaction → TxHash) (c : MemoryChain)
    (tx : Transaction) (check : TxChecker) : MemoryChain × Option Err :=
  match check tx with
  | some e => (c, some e)
  | none => ({ txs := c.txs ++ [tx], byHash := (H tx, tx) :: c.byHash }, none)

/-- `MemoryChain.GetTxOfHash` (chain.go lines 108-117): look the hash up in the
map; error when absent. -/
def MemoryChain.GetTxOfHash (c : MemoryChain) (hash : TxHash) :
    Except Err Transaction :=
  match mapLookup c.byHash hash with
  | none => .error "tx of hash does not exist"
  | some tx => .ok tx

/-- `MemoryChain.GetTxOfSeq` (chain.go lines 119-127): error when
`seq >= uint64(len(c.txs))`, otherwise the element at index `seq`. -/
def MemoryChain.GetTxOfSeq (c : MemoryChain) (seq : Nat) :
    Except Err Transaction :=
  if h : seq ≥ c.txs.length then .error "block of sequence does not exist"
  else .ok (c.txs.get ⟨seq, by omega⟩)

/-- The `for` loop of `GetTxsOfSeqRange` (chain.go lines 151-153): starting at
`currentSeq`, collect `c.txs[currentSeq]` while
`currentSeq < len ∧ currentSeq - startSeq < pageSize`. The uint64 difference
`currentSeq - startSeq` never wraps because `currentSeq` starts at `startSeq`
and only grows, so Nat subtraction is exact here. `fuel` makes the recursion
structural; the loop guard `currentSeq < len` bounds the iteration count by
`c.txs.length - currentSeq`, so any fuel of at least that value yields exactly
the iterations of the Go loop (`rangeLoop_eq_drop_take` below is proved for
every sufficient fuel). -/
def rangeLoop (c : MemoryChain) (startSeq pageSize currentSeq fuel : Nat) :
    List Transaction :=
  match fuel with
  | 0 => []
  | n + 1 =>
    if h : currentSeq < c.txs.length ∧ currentSeq - startSeq < pageSize then
      c.txs.get ⟨currentSeq, h.1⟩ :: rangeLoop c startSeq pageSize (currentSeq + 1) n
    else []

/-- `MemoryChain.GetTxsOfSeqRange` (chain.go lines 133-156): error on
`pageSize == 0`, error on `startSeq >= Len()`, otherwise the collected loop
result. -/
def MemoryChain.GetTxsOfSeqRange (c : MemoryChain) (startSeq pageSize : Nat) :
    Except Err (List Transaction) :=
  if pageSize = 0 then .error "Invalid pageSize"
  else
    let len := c.Len
    if startSeq ≥ len then .error "Invalid startSeq"
    else .ok (rangeLoop c startSeq pageSize startSeq (len - startSeq))

/-- Whether a Go call succeeded (returned a nil error). -/
def exOk {α : Type} (e : Except Err α) : Bool :=
  match e with
  | .ok _ => true
  | .error _ => false

/-- Chain states reachable from the fresh chain by any sequence of `AddTx`
calls, successful or rejected. -/
inductive Reachable (H : Transaction → TxHash) : MemoryChain → Prop where
  | init : Reachable H NewMemoryChain
  | step {c : MemoryChain} (tx : Transaction) (check : TxChecker) :
      Reachable H c → Reachable H (MemoryChain.AddTx H c tx check).1

/-- C1: if the check passed to `AddTx` rejects the transaction, `AddTx` returns
exactly that error and every observation of the chain state — `Len`, `HeadSeq`,
`GetTxOfHash` at every hash, `GetTxOfSeq` at every sequence, and
`GetTxsOfSeqRange` at every argument pair — is unchanged. -/
theorem addTx_rejected_no_side_effect (H : Transaction → TxHash)
    (c : MemoryChain) (tx : Transaction) (check : TxChecker) (e : Err)
    (hc : check tx = some e) :
    MemoryChain.AddTx H c tx check = (c, some e) ∧
    (MemoryChain.AddTx H c tx check).1.Len = c.Len ∧
    (MemoryChain.AddTx H c tx check).1.HeadSeq = c.HeadSeq ∧
    (∀ hsh, (MemoryChain.AddTx H c tx check).1.GetTxOfHash hsh = c.GetTxOfHash hsh) ∧
    (∀ s, (MemoryChain.AddTx H c tx check).1.GetTxOfSeq s = c.GetTxOfSeq s) ∧
    (∀ s p, (MemoryChain.AddTx H c tx check).1.GetTxsOfSeqRange s p =
      c.GetTxsOfSeqRange s p) := by
  have h1 : MemoryChain.AddTx H c tx check = (c, some e) := by
    unfold MemoryChain.AddTx
    rw [hc]
  refine ⟨h1, ?_, ?_, ?_, ?_, ?_⟩ <;> rw [h1]
  · exact fun _ => rfl
  · exact fun _ => rfl
  · exact fun _ _ => rfl

/-- Witness for C1 at a concrete rejected transaction. -/
theorem addTx_rejected_no_side_effect_witness :
    MemoryChain.AddTx (fun _ => 0) NewMemoryChain ⟨0, 0⟩ (fun _ => some "bad") =
      (NewMemoryChain, some "bad") :=
  (addTx_rejected_no_side_effect (fun _ => 0) NewMemoryChain ⟨0, 0⟩
    (fun _ => some "bad") "bad" rfl).1

/-- C2 (code evaluated at the failing input): on the empty chain, `HeadSeq`
returns the unsigned wraparound value `2^64 - 1` of `Len() - 1`; there is no
explicit empty-chain check in `MemoryChain.HeadSeq`. -/
theorem headSeq_underflows_on_empty :
    NewMemoryChain.Len = 0 ∧ NewMemoryChain.HeadSeq = U64 - 1 := by
  constructor
  · rfl
  · rfl

/-- C7: `GetTxOfSeq seq` errors exactly when `seq ≥ Len()`; for `seq < Len()`
it returns the transaction stored at sequence position `seq`. -/
theorem getTxOfSeq_contract (c : MemoryChain) (seq : Nat) :
    (seq ≥ c.Len → ∃ e, c.GetTxOfSeq seq = .error e) ∧
    (∀ h : seq < c.Len, c.GetTxOfSeq seq = .ok (c.txs.get ⟨seq, h⟩)) := by
  constructor
  · intro hge
    have hge2 : seq ≥ c.txs.length := hge
    unfold MemoryChain.GetTxOfSeq
    rw [dif_pos hge2]
    exact ⟨_, rfl⟩
  · intro hlt
    have hlt2 : seq < c.txs.length := hlt
    unfold MemoryChain.GetTxOfSeq
    rw [dif_neg (by omega)]

/-- Witness for C7 on a one-element chain at sequence 0. -/
theorem getTxOfSeq_contract_witness :
    MemoryChain.GetTxOfSeq ⟨[⟨1, 2⟩], [(5, ⟨1, 2⟩)]⟩ 0 = .ok ⟨1, 2⟩ :=
  (getTxOfSeq_contract ⟨[⟨1, 2⟩], [(5, ⟨1, 2⟩)]⟩ 0).2 (by decide)

/-- Characterisation of the `GetTxsOfSeqRange` loop: with sufficient fuel it
collects exactly the slice `txs[currentSeq : startSeq + pageSize]`. -/
theorem rangeLoop_eq_drop_take (c : MemoryChain) (startSeq pageSize : Nat) :
    ∀ fuel currentSeq, c.txs.length - currentSeq ≤ fuel → startSeq ≤ currentSeq →
      rangeLoop c startSeq pageSize currentSeq fuel =
        (c.txs.drop currentSeq).take (pageSize - (currentSeq - startSeq)) := by
  intro fuel
  induction fuel with
  | zero =>
    intro cur hf hs
    have hlen : c.txs.length ≤ cur := by omega
    rw [rangeLoop, List.drop_eq_nil_of_le hlen, List.take_nil]
  | succ n ih =>
    intro cur hf hs
    rw [rangeLoop]
    by_cases hcond : cur < c.txs.length ∧ cur - startSeq < pageSize
    · rw [dif_pos hcond, ih (cur + 1) (by omega) (by omega),
        List.drop_eq_getElem_cons hcond.1]
      have hp : pageSize - (cur - startSeq) = (pageSize - (cur + 1 - startSeq)) + 1 := by
        omega
      rw [hp, List.take_succ_cons]
      rfl
    · rw [dif_neg hcond]
      rcases Nat.lt_or_ge cur c.txs.length with h1 | h1
      · have h2 : pageSize - (cur - startSeq) = 0 := by omega
        rw [h2, List.take_zero]
      · rw [List.drop_eq_nil_of_le h1, List.take_nil]

/-- The successful branch of `GetTxsOfSeqRange` returns the slice
`txs[startSeq : startSeq + pageSize]`. -/
theorem getTxsOfSeqRange_ok (c : MemoryChain) (s p : Nat) (hp : p ≠ 0)
    (hs : s < c.Len) :
    c.GetTxsOfSeqRange s p = .ok ((c.txs.drop s).take p) := by
  unfold MemoryChain.GetTxsOfSeqRange
  rw [if_neg hp]
  show (if s ≥ c.Len then (Except.error "Invalid startSeq" : Except Err (List Transaction))
    else .ok (rangeLoop c s p s (c.Len - s))) = _
  rw [if_neg (Nat.not_le.mpr hs)]
  rw [rangeLoop_eq_drop_take c s p (c.Len - s) s (le_refl _) (le_refl _)]
  simp

/-- `GetTxsOfSeqRange` with a zero page size errors. -/
theorem getTxsOfSeqRange_err_zero (c : MemoryChain) (s : Nat) :
    c.GetTxsOfSeqRange s 0 = .error "Invalid pageSize" := by
  unfold MemoryChain.GetTxsOfSeqRange
  rw [if_pos rfl]

/-- `GetTxsOfSeqRange` with an out-of-range start errors. -/
theorem getTxsOfSeqRange_err_start (c : MemoryChain) (s p : Nat) (hp : p ≠ 0)
    (hs : s ≥ c.Len) :
    c.GetTxsOfSeqRange s p = .error "Invalid startSeq" := by
  unfold MemoryChain.GetTxsOfSeqRange
  rw [if_neg hp]
  show (if s ≥ c.Len then (Except.error "Invalid startSeq" : Except Err (List Transaction))
    else .ok (rangeLoop c s p s (c.Len - s))) = _
  rw [if_pos hs]

/-- C3: `GetTxsOfSeqRange s p` errors exactly when `p = 0` or `s ≥ Len()`;
otherwise it returns exactly `min p (Len() - s)` transactions, namely the
stored transactions at sequences `s, s+1, ...` in ascending order. -/
theorem getTxsOfSeqRange_contract (c : MemoryChain) (s p : Nat) :
    (exOk (c.GetTxsOfSeqRange s p) = false ↔ p = 0 ∨ s ≥ c.Len) ∧
    (p ≠ 0 → s < c.Len →
      ∃ res, c.GetTxsOfSeqRange s p = .ok res ∧
        res.length = min p (c.Len - s) ∧
        ∀ j, j < res.length → res[j]? = c.txs[s + j]?) := by
  constructor
  · constructor
    · intro hfail
      by_contra hcon
      push_neg at hcon
      obtain ⟨hp, hs⟩ := hcon
      rw [getTxsOfSeqRange_ok c s p hp (by omega)] at hfail
      exact Bool.noConfusion hfail
    · intro hor
      rcases hor with hp | hs
      · rw [hp, getTxsOfSeqRange_err_zero]
        rfl
      · by_cases hp : p = 0
        · rw [hp, getTxsOfSeqRange_err_zero]
          rfl
        · rw [getTxsOfSeqRange_err_start c s p hp hs]
          rfl
  · intro hp hs
    refine ⟨(c.txs.drop s).take p, getTxsOfSeqRange_ok c s p hp hs, ?_, ?_⟩
    · rw [List.length_take, List.length_drop]
      rfl
    · intro j hj
      rw [List.length_take, List.length_drop] at hj
      have hjp : j < p := lt_of_lt_of_le hj (Nat.min_le_left _ _)
      rw [List.getElem?_take_of_lt hjp, List.getElem?_drop]

/-- Witness for C3 on a two-element chain, start 0, page size 5. -/
theorem getTxsOfSeqRange_contract_witness :
    ∃ res, MemoryChain.GetTxsOfSeqRange ⟨[⟨1, 1⟩, ⟨2, 2⟩], []⟩ 0 5 = .ok res ∧
      res.length = min 5 (MemoryChain.Len ⟨[⟨1, 1⟩, ⟨2, 2⟩], []⟩ - 0) ∧
      ∀ j, j < res.length →
        res[j]? = (MemoryChain.txs ⟨[⟨1, 1⟩, ⟨2, 2⟩], []⟩)[0 + j]? :=
  (getTxsOfSeqRange_contract ⟨[⟨1, 1⟩, ⟨2, 2⟩], []⟩ 0 5).2
    (by decide) (by decide)

/-- C9: a successful `GetTxsOfSeqRange` call returns a non-empty page: success
requires `p ≥ 1` and `s < Len()`, so at least the transaction at sequence `s`
is returned. -/
theorem getTxsOfSeqRange_ok_nonempty (c : MemoryChain) (s p : Nat)
    (res : List Transaction) (h : c.GetTxsOfSeqRange s p = .ok res) :
    1 ≤ p ∧ s < c.Len ∧ res ≠ [] := by
  by_cases hp : p = 0
  · rw [hp, getTxsOfSeqRange_err_zero] at h
    exact Except.noConfusion h
  by_cases hs : s < c.Len
  · refine ⟨by omega, hs, ?_⟩
    rw [getTxsOfSeqRange_ok c s p hp hs] at h
    have hres : (c.txs.drop s).take p = res := Except.ok.inj h
    have hslen : s < c.txs.length := hs
    have hlen : res.length = min p (c.txs.length - s) := by
      rw [← hres, List.length_take, List.length_drop]
    have hpos : 0 < res.length := by omega
    exact List.ne_nil_of_length_pos hpos
  · rw [getTxsOfSeqRange_err_start c s p hp (by omega)] at h
    exact Except.noConfusion h

/-- Witness for C9 on a one-element chain. -/
theorem getTxsOfSeqRange_ok_nonempty_witness :
    1 ≤ 1 ∧ 0 < MemoryChain.Len ⟨[⟨1, 1⟩], []⟩ ∧ ([⟨1, 1⟩] : List Transaction) ≠ [] :=
  getTxsOfSeqRange_ok_nonempty ⟨[⟨1, 1⟩], []⟩ 0 1 [⟨1, 1⟩] rfl

/-- C5: on every chain state reachable from the fresh chain by `AddTx` calls,
`HeadSeq() = Len() - 1` whenever `Len() > 0` (stated under the Go bound
`Len() < 2^64`, which every real execution satisfies since a Go slice length
is below `2^63`); the invariant is preserved by every operation since the
reads do not change the state and `AddTx` keeps the state reachable. -/
theorem headSeq_eq_len_sub_one (H : Transaction → TxHash) (c : MemoryChain)
    (_hr : Reachable H c) (h0 : 0 < c.Len) (hb : c.Len < U64) :
    c.HeadSeq = c.Len - 1 := by
  have h0l : 0 < c.txs.length := h0
  have hbl : c.txs.length < U64 := hb
  have hU : U64 = 18446744073709551616 := by norm_num [U64]
  show (c.txs.length + (U64 - 1)) % U64 = c.txs.length - 1
  rw [hU] at hbl ⊢
  omega

/-- Witness for C5 on the reachable one-transaction chain. -/
theorem headSeq_eq_len_sub_one_witness :
    (MemoryChain.AddTx (fun _ => 0) NewMemoryChain ⟨0, 0⟩ (fun _ => none)).1.HeadSeq =
      (MemoryChain.AddTx (fun _ => 0) NewMemoryChain ⟨0, 0⟩ (fun _ => none)).1.Len - 1 :=
  headSeq_eq_len_sub_one (fun _ => 0) _
    (Reachable.step _ _ Reachable.init) (by decide)
    (by norm_num [MemoryChain.AddTx, MemoryChain.Len, NewMemoryChain, U64])

/-- C6: on the empty chain `Head()` fails with the no-transactions error; after
one successful `AddTx` of `tx1` into the empty chain, the call reports no
error, `Head()` returns `tx1`, `HeadSeq()` returns 0 and `Len()` returns 1. -/
theorem empty_head_then_first_add (H : Transaction → TxHash) (tx1 : Transaction)
    (check : TxChecker) (hc : check tx1 = none) :
    NewMemoryChain.Head = .error "no transactions" ∧
    (MemoryChain.AddTx H NewMemoryChain tx1 check).2 = none ∧
    (MemoryChain.AddTx H NewMemoryChain tx1 check).1.Head = .ok tx1 ∧
    (MemoryChain.AddTx H NewMemoryChain tx1 check).1.HeadSeq = 0 ∧
    (MemoryChain.AddTx H NewMemoryChain tx1 check).1.Len = 1 := by
  have hadd : MemoryChain.AddTx H NewMemoryChain tx1 check =
      ({ txs := [tx1], byHash := [(H tx1, tx1)] }, none) := by
    unfold MemoryChain.AddTx
    rw [hc]
    rfl
  have hstate : (MemoryChain.AddTx H NewMemoryChain tx1 check).1 =
      { txs := [tx1], byHash := [(H tx1, tx1)] } := by rw [hadd]
  have herr : (MemoryChain.AddTx H NewMemoryChain tx1 check).2 = none := by rw [hadd]
  refine ⟨rfl, herr, ?_, ?_, ?_⟩
  · rw [hstate]
    unfold MemoryChain.Head
    rw [dif_neg (by simp : ¬([tx1] : List Transaction).length = 0)]
    rfl
  · rw [hstate]
    show (1 + (U64 - 1)) % U64 = 0
    norm_num [U64]
  · rw [hstate]
    rfl

/-- Witness for C6 at a concrete transaction and an accepting check. -/
theorem empty_head_then_first_add_witness :
    NewMemoryChain.Head = .error "no transactions" ∧
    (MemoryChain.AddTx (fun _ => 3) NewMemoryChain ⟨7, 8⟩ (fun _ => none)).2 = none ∧
    (MemoryChain.AddTx (fun _ => 3) NewMemoryChain ⟨7, 8⟩ (fun _ => none)).1.Head = .ok ⟨7, 8⟩ ∧
    (MemoryChain.AddTx (fun _ => 3) NewMemoryChain ⟨7, 8⟩ (fun _ => none)).1.HeadSeq = 0 ∧
    (MemoryChain.AddTx (fun _ => 3) NewMemoryChain ⟨7, 8⟩ (fun _ => none)).1.Len = 1 :=
  empty_head_then_first_add (fun _ => 3) ⟨7, 8⟩ (fun _ => none) rfl

/-- C8: a successful `AddTx` appends: the error is nil, `Len()` grows by one,
the new transaction sits at the last sequence position, and every sequence
below the old `Len()` still yields the same transaction as before the call. -/
theorem addTx_success_appends (H : Transaction → TxHash) (c : MemoryChain)
    (tx : Transaction) (check : TxChecker) (hc : check tx = none) :
    (MemoryChain.AddTx H c tx check).2 = none ∧
    (MemoryChain.AddTx H c tx check).1.Len = c.Len + 1 ∧
    (MemoryChain.AddTx H c tx check).1.GetTxOfSeq c.Len = .ok tx ∧
    ∀ i, i < c.Len → (MemoryChain.AddTx H c tx check).1.GetTxOfSeq i = c.GetTxOfSeq i := by
  have hadd : MemoryChain.AddTx H c tx check =
      ({ txs := c.txs ++ [tx], byHash := (H tx, tx) :: c.byHash }, none) := by
    unfold MemoryChain.AddTx
    rw [hc]
  have hstate : (MemoryChain.AddTx H c tx check).1 =
      { txs := c.txs ++ [tx], byHash := (H tx, tx) :: c.byHash } := by rw [hadd]
  have herr : (MemoryChain.AddTx H c tx check).2 = none := by rw [hadd]
  refine ⟨herr, ?_, ?_, ?_⟩
  · rw [hstate]
    show (c.txs ++ [tx]).length = c.txs.length + 1
    simp
  · rw [hstate]
    show MemoryChain.GetTxOfSeq _ c.txs.length = .ok tx
    unfold MemoryChain.GetTxOfSeq
    have hlt : ¬ c.txs.length ≥ (c.txs ++ [tx]).length := by
      simp
    rw [dif_neg hlt]
    congr 1
    exact List.getElem_concat_length c.txs tx c.txs.length rfl _
  · intro i hi
    have hi2 : i < c.txs.length := hi
    rw [hstate]
    show MemoryChain.GetTxOfSeq _ i = _
    unfold MemoryChain.GetTxOfSeq
    have hlt : ¬ i ≥ (c.txs ++ [tx]).length := by
      simp
      omega
    rw [dif_neg hlt, dif_neg (by omega : ¬ i ≥ c.txs.length)]
    congr 1
    exact List.getElem_append_left hi2

/-- Witness for C8: appending to a concrete one-transaction chain. -/
theorem addTx_success_appends_witness :
    (MemoryChain.AddTx (fun _ => 9) ⟨[⟨1, 1⟩], [(9, ⟨1, 1⟩)]⟩ ⟨2, 2⟩ (fun _ => none)).2 = none ∧
    (MemoryChain.AddTx (fun _ => 9) ⟨[⟨1, 1⟩], [(9, ⟨1, 1⟩)]⟩ ⟨2, 2⟩ (fun _ => none)).1.Len =
      MemoryChain.Len ⟨[⟨1, 1⟩], [(9, ⟨1, 1⟩)]⟩ + 1 ∧
    (MemoryChain.AddTx (fun _ => 9) ⟨[⟨1, 1⟩], [(9, ⟨1, 1⟩)]⟩ ⟨2, 2⟩ (fun _ => none)).1.GetTxOfSeq
      (MemoryChain.Len ⟨[⟨1, 1⟩], [(9, ⟨1, 1⟩)]⟩) = .ok ⟨2, 2⟩ ∧
    ∀ i, i < MemoryChain.Len ⟨[⟨1, 1⟩], [(9, ⟨1, 1⟩)]⟩ →
      (MemoryChain.AddTx (fun _ => 9) ⟨[⟨1, 1⟩], [(9, ⟨1, 1⟩)]⟩ ⟨2, 2⟩ (fun _ => none)).1.GetTxOfSeq i =
        MemoryChain.GetTxOfSeq ⟨[⟨1, 1⟩], [(9, ⟨1, 1⟩)]⟩ i :=
  addTx_success_appends (fun _ => 9) ⟨[⟨1, 1⟩], [(9, ⟨1, 1⟩)]⟩ ⟨2, 2⟩ (fun _ => none) rfl

/-- Unfolding lemma for `mapLookup` on a non-empty map. -/
theorem mapLookup_cons (k : TxHash) (v : Transaction)
    (rest : List (TxHash × Transaction)) (h : TxHash) :
    mapLookup ((k, v) :: rest) h = if k = h then some v else mapLookup rest h :=
  rfl

/-- A successful `mapLookup` finds an entry of the map. -/
theorem mapLookup_mem (m : List (TxHash × Transaction)) (h : TxHash)
    (tx : Transaction) (hl : mapLookup m h = some tx) : (h, tx) ∈ m := by
  induction m with
  | nil => exact Option.noConfusion hl
  | cons kv rest ih =>
    obtain ⟨k, v⟩ := kv
    rw [mapLookup_cons] at hl
    by_cases hk : k = h
    · rw [if_pos hk] at hl
      obtain rfl := Option.some.inj hl
      subst hk
      exact List.mem_cons_self _ _
    · rw [if_neg hk] at hl
      exact List.mem_cons_of_mem _ (ih hl)

/-- `AddTx` either leaves the state unchanged (rejection) or appends the
transaction and binds its hash (admission). -/
theorem addTx_state_cases (H : Transaction → TxHash) (c : MemoryChain)
    (tx : Transaction) (check : TxChecker) :
    (MemoryChain.AddTx H c tx check).1 = c ∨
    (MemoryChain.AddTx H c tx check).1 =
      { txs := c.txs ++ [tx], byHash := (H tx, tx) :: c.byHash } := by
  cases hchk : check tx with
  | some e =>
    left
    unfold MemoryChain.AddTx
    rw [hchk]
  | none =>
    right
    unfold MemoryChain.AddTx
    rw [hchk]

/-- Soundness of the hash index: every binding maps a hash to a transaction
with exactly that hash, because each insertion in `AddTx` binds `tx.Hash()`
to `tx` itself. -/
def IndexSound (H : Transaction → TxHash) (c : MemoryChain) : Prop :=
  ∀ p ∈ c.byHash, H p.2 = p.1

/-- Completeness of the hash index: every stored transaction is found by hash
lookup at its own hash. -/
def IndexComplete (H : Transaction → TxHash) (c : MemoryChain) : Prop :=
  ∀ tx ∈ c.txs, ∃ tx2, mapLookup c.byHash (H tx) = some tx2

/-- Index soundness holds on every reachable chain state. -/
theorem reachable_indexSound (H : Transaction → TxHash) (c : MemoryChain)
    (hr : Reachable H c) : IndexSound H c := by
  induction hr with
  | init =>
    intro p hp
    exact absurd hp (List.not_mem_nil p)
  | step tx check hprev ih =>
    rcases addTx_state_cases H _ tx check with hcase | hcase <;> rw [hcase]
    · exact ih
    · intro p hp
      rcases List.mem_cons.mp hp with hp1 | hp2
      · subst hp1
        rfl
      · exact ih p hp2

/-- Index completeness holds on every reachable chain state. -/
theorem reachable_indexComplete (H : Transaction → TxHash) (c : MemoryChain)
    (hr : Reachable H c) : IndexComplete H c := by
  induction hr with
  | init =>
    intro tx htx
    exact absurd htx (List.not_mem_nil tx)
  | step tx check hprev ih =>
    rcases addTx_state_cases H _ tx check with hcase | hcase <;> rw [hcase]
    · exact ih
    · intro tx0 htx0
      show ∃ tx2, mapLookup ((H tx, tx) :: _) (H tx0) = some tx2
      rw [mapLookup_cons]
      by_cases hh : H tx = H tx0
      · rw [if_pos hh]
        exact ⟨tx, rfl⟩
      · rw [if_neg hh]
        rcases List.mem_append.mp htx0 with hmem | hmem
        · exact ih tx0 hmem
        · rw [List.mem_singleton] at hmem
          subst hmem
          exact absurd rfl hh

/-- C4: on every reachable chain state, looking an admitted transaction up by
its own content hash round-trips: for each sequence `i < Len()` there is a
transaction returned by `GetTxOfSeq i`, and `GetTxOfHash` at its hash returns
that very transaction. The content hash is an identity per the spec, so the
hash function is assumed injective. -/
theorem hash_roundtrip (H : Transaction → TxHash) (hinj : Function.Injective H)
    (c : MemoryChain) (hr : Reachable H c) (i : Nat) (hi : i < c.Len) :
    ∃ tx, c.GetTxOfSeq i = .ok tx ∧ c.GetTxOfHash (H tx) = .ok tx := by
  have hi2 : i < c.txs.length := hi
  refine ⟨c.txs.get ⟨i, hi2⟩, ?_, ?_⟩
  · unfold MemoryChain.GetTxOfSeq
    rw [dif_neg (by omega : ¬ i ≥ c.txs.length)]
  · have hmem : c.txs.get ⟨i, hi2⟩ ∈ c.txs := List.get_mem c.txs i hi2
    obtain ⟨tx2, hl⟩ := reachable_indexComplete H c hr _ hmem
    have hmem2 := mapLookup_mem c.byHash _ tx2 hl
    have hhash : H tx2 = H (c.txs.get ⟨i, hi2⟩) :=
      reachable_indexSound H c hr (H (c.txs.get ⟨i, hi2⟩), tx2) hmem2
    obtain rfl : tx2 = c.txs.get ⟨i, hi2⟩ := hinj hhash
    unfold MemoryChain.GetTxOfHash
    rw [hl]

/-- A concrete injective content hash used in witnesses: the canonical pairing
of the transaction's fields. -/
def pairHash (tx : Transaction) : TxHash := Nat.pair tx.assetID tx.payload

/-- The pairing hash is injective, matching the spec's demand that the content
hash identify the transaction. -/
theorem pairHash_injective : Function.Injective pairHash := by
  intro a b hab
  unfold pairHash at hab
  obtain ⟨h1, h2⟩ := Nat.pair_eq_pair.mp hab
  cases a
  cases b
  simp_all

/-- Witness for C4 on the reachable one-transaction chain with the pairing
hash. -/
theorem hash_roundtrip_witness :
    ∃ tx, (MemoryChain.AddTx pairHash NewMemoryChain ⟨3, 4⟩ (fun _ => none)).1.GetTxOfSeq 0 =
        .ok tx ∧
      (MemoryChain.AddTx pairHash NewMemoryChain ⟨3, 4⟩ (fun _ => none)).1.GetTxOfHash
        (pairHash tx) = .ok tx :=
  hash_roundtrip pairHash pairHash_injective _
    (Reachable.step _ _ Reachable.init) 0 (by decide)

/-- C10: `AddTx` imposes no uniqueness check of its own: a transaction `tx2`
whose hash equals that of the already-admitted `tx1` and which passes the
check is appended as a new entry (`Len` grows by one), after which hash lookup
at that hash returns `tx2` — and no longer returns the earlier `tx1` whenever
the two transactions differ. -/
theorem addTx_duplicate_hash (H : Transaction → TxHash) (c : MemoryChain)
    (tx1 tx2 : Transaction) (check : TxChecker)
    (_h1 : tx1 ∈ c.txs) (hh : H tx2 = H tx1) (hc : check tx2 = none) :
    (MemoryChain.AddTx H c tx2 check).2 = none ∧
    (MemoryChain.AddTx H c tx2 check).1.Len = c.Len + 1 ∧
    (MemoryChain.AddTx H c tx2 check).1.GetTxOfHash (H tx1) = .ok tx2 ∧
    (tx1 ≠ tx2 →
      (MemoryChain.AddTx H c tx2 check).1.GetTxOfHash (H tx1) ≠ .ok tx1) := by
  have hadd : MemoryChain.AddTx H c tx2 check =
      ({ txs := c.txs ++ [tx2], byHash := (H tx2, tx2) :: c.byHash }, none) := by
    unfold MemoryChain.AddTx
    rw [hc]
  have hlook : (MemoryChain.AddTx H c tx2 check).1.GetTxOfHash (H tx1) = .ok tx2 := by
    rw [hadd]
    show MemoryChain.GetTxOfHash _ (H tx1) = .ok tx2
    unfold MemoryChain.GetTxOfHash
    rw [mapLookup_cons, if_pos hh]
  refine ⟨by rw [hadd], ?_, hlook, ?_⟩
  · rw [hadd]
    show (c.txs ++ [tx2]).length = c.txs.length + 1
    simp
  · intro hne hcontra
    rw [hlook] at hcontra
    exact hne (Except.ok.inj hcontra).symm

/-- Witness for C10: two distinct transactions under a constant (colliding)
hash function; the earlier transaction is no longer reachable by hash. -/
theorem addTx_duplicate_hash_witness :
    (MemoryChain.AddTx (fun _ => 7) ⟨[⟨1, 1⟩], [(7, ⟨1, 1⟩)]⟩ ⟨2, 2⟩ (fun _ => none)).2 =
      none ∧
    (MemoryChain.AddTx (fun _ => 7) ⟨[⟨1, 1⟩], [(7, ⟨1, 1⟩)]⟩ ⟨2, 2⟩ (fun _ => none)).1.Len =
      MemoryChain.Len ⟨[⟨1, 1⟩], [(7, ⟨1, 1⟩)]⟩ + 1 ∧
    (MemoryChain.AddTx (fun _ => 7) ⟨[⟨1, 1⟩], [(7, ⟨1, 1⟩)]⟩ ⟨2, 2⟩
        (fun _ => none)).1.GetTxOfHash 7 = .ok ⟨2, 2⟩ ∧
    (MemoryChain.AddTx (fun _ => 7) ⟨[⟨1, 1⟩], [(7, ⟨1, 1⟩)]⟩ ⟨2, 2⟩
        (fun _ => none)).1.GetTxOfHash 7 ≠ .ok ⟨1, 1⟩ :=
  have h := addTx_duplicate_hash (fun _ => 7) ⟨[⟨1, 1⟩], [(7, ⟨1, 1⟩)]⟩ ⟨1, 1⟩ ⟨2, 2⟩
    (fun _ => none) (List.mem_singleton.mpr rfl) rfl rfl
  ⟨h.1, h.2.1, h.2.2.1, h.2.2.2 (by decide)⟩
